import Mathlib

/-!
Verification of the option-pricing / implied-volatility core of the
black-scholes-option-pricer-streamlit repository.

The implied-volatility solver and surface builder are embedded from
`src/vol_surface.py`.  Machine floats are modelled by `ℝ`; a pandas
DataFrame of option quotes is modelled by a `List OptionQuote`; pandas
in-place column assignment is modelled by explicit state passing (the
returned list is the post-state of the argument); a pandas operation that
raises (e.g. `.iloc[0]` on an empty frame) is modelled by `Option`.
-/

open MeasureTheory Real Set

/-- Option side; the `optionType` column holds only `call` and `put`
(set by `fetch_option_chain` in `src/vol_surface.py`). -/
inductive OptionSide where
  | call : OptionSide
  | put : OptionSide
deriving DecidableEq, Repr

/-- One row of the option-quote DataFrame consumed by
`calculate_implied_volatility` / `create_volatility_surface`
(`src/vol_surface.py`).  The `impliedVolatility` field models the
`impliedVolatility` column: `none` means the column has not been written,
`some v` means the column holds `v`, where `v : Option ℝ` is `none` when
`calc_iv` returned `None` (a NaN cell in pandas). -/
structure OptionQuote where
  strike : ℝ
  optionType : OptionSide
  lastPrice : ℝ
  timeToExpiry : ℝ
  daysToExpiry : ℤ
  moneyness : ℝ
  impliedVolatility : Option (Option ℝ)

/-- Modelled from the spec: the Black-Scholes pricer (`src/black_scholes.py`,
class `BlackScholes`) is not in the provided sources, only its callers are.
Standard normal density from spec section 4.1. -/
noncomputable def normalPDF (t : ℝ) : ℝ :=
  (Real.sqrt (2 * Real.pi))⁻¹ * Real.exp (-(1 / 2) * t ^ 2)

/-- Modelled from the spec: the standard normal CDF `Φ` of spec
section 4.1 (the pricer source file is missing). -/
noncomputable def normalCDF (x : ℝ) : ℝ :=
  ∫ t in Iic x, normalPDF t

namespace BlackScholes

/-- Modelled from the spec: `d1` of spec section 4.1
(`src/black_scholes.py` is missing from the sources). -/
noncomputable def d1 (S K T r sigma q : ℝ) : ℝ :=
  (Real.log (S / K) + (r - q + sigma ^ 2 / 2) * T) / (sigma * Real.sqrt T)

/-- Modelled from the spec: `d2 = d1 − σ·√T` of spec section 4.1. -/
noncomputable def d2 (S K T r sigma q : ℝ) : ℝ :=
  d1 S K T r sigma q - sigma * Real.sqrt T

/-- Modelled from the spec: `BlackScholes.calculate_option_price`
(`src/black_scholes.py` is missing); call and put formulas from spec
section 4.1.  The function is total: as spec section 9 records, the source
does not guard `σ·√T = 0` or non-positive inputs, so no domain check is
performed and a (junk) value is returned on the degenerate inputs. -/
noncomputable def calculate_option_price (S K T r sigma q : ℝ) :
    OptionSide → ℝ
  | OptionSide.call =>
      S * Real.exp (-q * T) * normalCDF (d1 S K T r sigma q) -
        K * Real.exp (-r * T) * normalCDF (d2 S K T r sigma q)
  | OptionSide.put =>
      K * Real.exp (-r * T) * normalCDF (-d2 S K T r sigma q) -
        S * Real.exp (-q * T) * normalCDF (-d1 S K T r sigma q)

end BlackScholes

/-- The objective function built inside `calc_iv` (`src/vol_surface.py`,
lines 68-71): absolute pricing error at volatility `sigma` for one quote
row, with `current_price` used as the spot. -/
noncomputable def objective_function (current_price r q : ℝ)
    (row : OptionQuote) (sigma : ℝ) : ℝ :=
  |BlackScholes.calculate_option_price current_price row.strike
      row.timeToExpiry r sigma q row.optionType - row.lastPrice|

/-- The `i`-th point of `np.linspace(0.01, 2.0, 100)` used by the grid
search in `calc_iv` (`src/vol_surface.py`, line 76). -/
noncomputable def gridPoint (i : ℕ) : ℝ :=
  0.01 + i * ((2 - 0.01) / 99)

/-- The candidate-volatility grid `np.linspace(0.01, 2.0, 100)`, scanned
in increasing order. -/
noncomputable def sigmaGrid : List ℝ :=
  (List.range 100).map gridPoint

/-- One iteration of the grid-search loop of `calc_iv`
(`src/vol_surface.py`, lines 76-80): the accumulator `(best_iv, best_error)`
is replaced by `(sigma, error)` only when `error < best_error`. -/
noncomputable def searchStep (f : ℝ → ℝ) (acc : ℝ × ℝ) (sigma : ℝ) : ℝ × ℝ :=
  if f sigma < acc.2 then (sigma, f sigma) else acc

/-- The whole grid search of `calc_iv` (`src/vol_surface.py`, lines 73-80):
fold of `searchStep` over the candidate grid, pre-seeded with the incumbent
`best_iv = 0.5`, `best_error = f 0.5`. -/
noncomputable def gridSearch (f : ℝ → ℝ) : ℝ × ℝ :=
  sigmaGrid.foldl (searchStep f) (0.5, f 0.5)

/-- `calc_iv` from `src/vol_surface.py` (lines 59-85): reject prices below
0.01, run the grid search, reject when the best error exceeds 10% of the
observed price, otherwise return the best volatility. -/
noncomputable def calc_iv (current_price r q : ℝ) (row : OptionQuote) :
    Option ℝ :=
  if row.lastPrice < 0.01 then none
  else
    let res := gridSearch (objective_function current_price r q row)
    if 0.1 * row.lastPrice < res.2 then none else some res.1

/-- `calculate_implied_volatility` from `src/vol_surface.py` (lines 58-93).
The spot fed to every objective is `moneyness.iloc[0] * strike.iloc[0]`;
on an empty frame `.iloc[0]` raises `IndexError`, modelled by `none`.
The Python version assigns the `impliedVolatility` column in place on its
argument and returns that same frame, so the returned list is the
post-state of the input collection. -/
noncomputable def calculate_implied_volatility (df : List OptionQuote)
    (r q : ℝ) : Option (List OptionQuote) :=
  match df with
  | [] => none
  | first :: rest =>
      let current_price := first.moneyness * first.strike
      some ((first :: rest).map fun row =>
        { row with impliedVolatility := some (calc_iv current_price r q row) })

/-- The per-row update performed by the `apply` of
`calculate_implied_volatility`: write the row's `impliedVolatility` cell
with the result of `calc_iv`. -/
noncomputable def setIV (current_price r q : ℝ) (row : OptionQuote) :
    OptionQuote :=
  { row with impliedVolatility := some (calc_iv current_price r q row) }

/-- Erase the `impliedVolatility` column of a row, leaving every other
column; used to state which columns an operation may change. -/
def eraseIV (row : OptionQuote) : OptionQuote :=
  { row with impliedVolatility := none }

/-- The y-axis value of a quote: moneyness when `use_moneyness`, raw strike
otherwise (`src/vol_surface.py`, lines 99-104 and 109). -/
def y_value (use_moneyness : Bool) (row : OptionQuote) : ℝ :=
  if use_moneyness then row.moneyness else row.strike

/-- Side selection step of `create_volatility_surface`
(`src/vol_surface.py`, line 96): keep rows of the requested option type. -/
def side_rows (df : List OptionQuote) (option_type : OptionSide) :
    List OptionQuote :=
  df.filter fun row => decide (row.optionType = option_type)

/-- `dropna(subset=["impliedVolatility"])` (`src/vol_surface.py`, line 97):
keep rows whose `impliedVolatility` cell holds an actual number. -/
def dropna_rows (df : List OptionQuote) : List OptionQuote :=
  df.filter fun row =>
    match row.impliedVolatility with
    | some (some _) => true
    | _ => false

/-- The optional range filter of `create_volatility_surface`
(`src/vol_surface.py`, lines 99-104): with a `(low, high)` range keep rows
whose moneyness (if `use_moneyness`) or strike lies in `[low, high]`, both
bounds inclusive; with no range keep everything. -/
noncomputable def filtered_rows (df : List OptionQuote)
    (use_moneyness : Bool) (filter_range : Option (ℝ × ℝ)) :
    List OptionQuote :=
  match filter_range with
  | none => df
  | some (lo, hi) =>
      df.filter fun row =>
        decide (lo ≤ y_value use_moneyness row ∧ y_value use_moneyness row ≤ hi)

/-- The bucket of rows sharing one `(daysToExpiry, yAxisValue)` cell of the
pivot table (`src/vol_surface.py`, lines 110-112). -/
noncomputable def bucket (df : List OptionQuote) (use_moneyness : Bool)
    (d : ℤ) (y : ℝ) : List OptionQuote :=
  df.filter fun row =>
    decide (row.daysToExpiry = d ∧ y_value use_moneyness row = y)

/-- The numeric value stored in a present `impliedVolatility` cell (rows
reaching the pivot step have passed `dropna_rows`, so the default branch is
never sampled there). -/
def ivVal (row : OptionQuote) : ℝ :=
  match row.impliedVolatility with
  | some (some v) => v
  | _ => 0

/-- The gridded surface extracted from the pivot table
(`src/vol_surface.py`, lines 109-118): sorted axes `x_data` (days to
expiry) and `y_data` (moneyness or strike), and the sparse cell contents
`z_data` (`none` models an empty, NaN cell of the pivot). -/
structure SurfaceGrid where
  xAxis : List ℤ
  yAxis : List ℝ
  cell : ℤ → ℝ → Option ℝ

/-- The pivot-table construction of `create_volatility_surface`
(`src/vol_surface.py`, lines 109-116): axes are the sorted distinct
`daysToExpiry` and y-axis values, each cell is the arithmetic mean of the
implied volatilities of its bucket, and an empty bucket yields an absent
(`none`) cell. -/
noncomputable def mkSurface (df : List OptionQuote) (use_moneyness : Bool) :
    SurfaceGrid where
  xAxis := (df.map fun row => row.daysToExpiry).toFinset.sort (· ≤ ·)
  yAxis := (df.map (y_value use_moneyness)).toFinset.sort (· ≤ ·)
  cell := fun d y =>
    let b := bucket df use_moneyness d y
    if b.isEmpty then none else some ((b.map ivVal).sum / b.length)

/-- `create_volatility_surface` from `src/vol_surface.py` (lines 96-151),
restricted to the data it computes (the plotly figure dressing around
`x_data`/`y_data`/`z_data` is presentation): select the side, drop rows
without an implied volatility, apply the optional inclusive range filter,
return `none` when nothing is left, otherwise the pivoted grid.  The input
is copied first (line 96), so the argument itself is untouched. -/
noncomputable def create_volatility_surface (df : List OptionQuote)
    (option_type : OptionSide) (use_moneyness : Bool)
    (filter_range : Option (ℝ × ℝ)) : Option SurfaceGrid :=
  let rows := filtered_rows (dropna_rows (side_rows df option_type))
      use_moneyness filter_range
  if rows.isEmpty then none else some (mkSurface rows use_moneyness)

/-- `get_volatility_surface` from `src/vol_surface.py` (lines 154-164),
after the external fetch: a `none` quote collection short-circuits to
`(none, none)`; otherwise the implied-volatility pass runs (raising on an
empty frame, outer `none`) and both sides are built from its result. -/
noncomputable def get_volatility_surface (options_df : Option (List OptionQuote))
    (r q : ℝ) (use_moneyness : Bool) (filter_range : Option (ℝ × ℝ)) :
    Option (Option SurfaceGrid × Option SurfaceGrid) :=
  match options_df with
  | none => some (none, none)
  | some df =>
      match calculate_implied_volatility df r q with
      | none => none
      | some df2 =>
          some (create_volatility_surface df2 OptionSide.call use_moneyness filter_range,
                create_volatility_surface df2 OptionSide.put use_moneyness filter_range)

/-- A concrete quote used to instantiate hypothesis-bearing theorems. -/
noncomputable def sampleQuote : OptionQuote :=
  { strike := 100, optionType := OptionSide.call, lastPrice := 1,
    timeToExpiry := 1, daysToExpiry := 30, moneyness := 1,
    impliedVolatility := none }

/-- Behaviour of the grid-search fold: either the accumulator survives
unchanged, or the result is the first scanned candidate that strictly beats
every earlier candidate and the accumulator; in all cases the final error is
a lower bound improvement over the accumulator and all scanned candidates. -/
theorem foldl_searchStep_spec (f : ℝ → ℝ) (l : List ℝ) :
    ∀ acc : ℝ × ℝ,
      (l.foldl (searchStep f) acc = acc ∨
        ∃ i : ℕ, ∃ x : ℝ, l[i]? = some x ∧
          l.foldl (searchStep f) acc = (x, f x) ∧ f x < acc.2 ∧
          ∀ j, j < i → ∀ y : ℝ, l[j]? = some y → f x < f y) ∧
      (l.foldl (searchStep f) acc).2 ≤ acc.2 ∧
      ∀ sigma ∈ l, (l.foldl (searchStep f) acc).2 ≤ f sigma := by
  induction l with
  | nil => intro acc; simp
  | cons a t ih =>
    intro acc
    have hfold : (a :: t).foldl (searchStep f) acc
        = t.foldl (searchStep f) (searchStep f acc a) := List.foldl_cons _ _
    set acc2 := searchStep f acc a with hacc2
    have hle1 : acc2.2 ≤ acc.2 := by
      rw [hacc2, searchStep]
      split
      · exact le_of_lt (by assumption)
      · exact le_rfl
    have hle2 : acc2.2 ≤ f a := by
      rw [hacc2, searchStep]
      split
      · exact le_rfl
      · exact le_of_not_lt (by assumption)
    obtain ⟨hd, hsnd, hall⟩ := ih acc2
    refine ⟨?_, ?_, ?_⟩
    · rcases hd with hd | ⟨i, x, hx, hr, hlt, hfirst⟩
      · by_cases hcase : f a < acc.2
        · refine Or.inr ⟨0, a, by simp, ?_, hcase, by omega⟩
          rw [hfold, hd, hacc2, searchStep, if_pos hcase]
        · left
          rw [hfold, hd, hacc2, searchStep, if_neg hcase]
      · refine Or.inr ⟨i + 1, x, by simpa using hx, by rw [hfold]; exact hr,
          lt_of_lt_of_le hlt hle1, ?_⟩
        intro j hj y hy
        match j with
        | 0 =>
          have hya : y = a := by simpa using hy.symm
          exact hya ▸ lt_of_lt_of_le hlt hle2
        | j + 1 =>
          exact hfirst j (by omega) y (by simpa using hy)
    · rw [hfold]; exact le_trans hsnd hle1
    · intro sigma hmem
      rcases List.mem_cons.mp hmem with hmem | hmem
      · subst hmem
        rw [hfold]; exact le_trans hsnd hle2
      · rw [hfold]; exact hall sigma hmem

theorem sigmaGrid_getElem (i : ℕ) :
    sigmaGrid[i]? = if i < 100 then some (gridPoint i) else none := by
  by_cases hi : i < 100
  · simp [sigmaGrid, List.getElem?_map, List.getElem?_range hi, hi]
  · simp only [sigmaGrid, List.getElem?_map, if_neg hi]
    rw [List.getElem?_eq_none (by simpa using not_lt.mp hi)]
    rfl

theorem sigmaGrid_mem (x : ℝ) :
    x ∈ sigmaGrid ↔ ∃ i, i < 100 ∧ x = gridPoint i := by
  simp [sigmaGrid, List.mem_map, List.mem_range, eq_comm]

/-- Clean characterisation of `gridSearch`: the returned error is the value
of `f` at the returned volatility, it is minimal among the seed `0.5` and
all 100 grid candidates, and the returned volatility is the seed (when no
candidate is strictly better) or the first candidate attaining the
minimum. -/
theorem gridSearch_spec (f : ℝ → ℝ) :
    (gridSearch f).2 = f (gridSearch f).1 ∧
    (gridSearch f).2 ≤ f 0.5 ∧
    (∀ i, i < 100 → (gridSearch f).2 ≤ f (gridPoint i)) ∧
    (gridSearch f = (0.5, f 0.5) ∨
      ∃ i, i < 100 ∧ gridSearch f = (gridPoint i, f (gridPoint i)) ∧
        f (gridPoint i) < f 0.5 ∧
        ∀ j, j < i → f (gridPoint i) < f (gridPoint j)) := by
  obtain ⟨hd, hsnd, hall⟩ := foldl_searchStep_spec f sigmaGrid (0.5, f 0.5)
  have hgrid : ∀ i, i < 100 → (gridSearch f).2 ≤ f (gridPoint i) := by
    intro i hi
    exact hall (gridPoint i) ((sigmaGrid_mem (gridPoint i)).mpr ⟨i, hi, rfl⟩)
  have hdisj : gridSearch f = (0.5, f 0.5) ∨
      ∃ i, i < 100 ∧ gridSearch f = (gridPoint i, f (gridPoint i)) ∧
        f (gridPoint i) < f 0.5 ∧
        ∀ j, j < i → f (gridPoint i) < f (gridPoint j) := by
    rcases hd with hd | ⟨i, x, hx, hr, hlt, hfirst⟩
    · exact Or.inl hd
    · rw [sigmaGrid_getElem] at hx
      by_cases hi : i < 100
      · rw [if_pos hi] at hx
        have hxg : x = gridPoint i := by simpa using hx.symm
        subst hxg
        refine Or.inr ⟨i, hi, hr, hlt, ?_⟩
        intro j hj
        exact hfirst j hj (gridPoint j)
          (by rw [sigmaGrid_getElem, if_pos (by omega)])
      · rw [if_neg hi] at hx; exact absurd hx (by simp)
  refine ⟨?_, hsnd, hgrid, hdisj⟩
  rcases hdisj with h | ⟨i, _, h, _, _⟩ <;> rw [h]

/-- C1: for a quote with observed price at least 0.01, `calc_iv` returns
(subject only to the 10% acceptance check) the volatility produced by
scanning the absolute pricing error over 100 evenly spaced candidates
spanning [0.01, 2.00] in increasing order, starting from the pre-seeded
incumbent 0.5 and replacing it only on strictly smaller error, so the
first-found minimum wins ties and the seed survives when no candidate is
strictly better. -/
theorem C1_grid_argmin (current_price r q : ℝ) (row : OptionQuote)
    (h : 0.01 ≤ row.lastPrice) :
    (calc_iv current_price r q row =
      if 0.1 * row.lastPrice <
          (gridSearch (objective_function current_price r q row)).2
      then none
      else some (gridSearch (objective_function current_price r q row)).1) ∧
    gridPoint 0 = 0.01 ∧ gridPoint 99 = 2 ∧
    (∀ i, gridPoint (i + 1) - gridPoint i = (2 - 0.01) / 99) ∧
    sigmaGrid.length = 100 ∧
    ((gridSearch (objective_function current_price r q row)).2 =
        objective_function current_price r q row
          (gridSearch (objective_function current_price r q row)).1 ∧
      (gridSearch (objective_function current_price r q row)).2 ≤
        objective_function current_price r q row 0.5 ∧
      (∀ i, i < 100 →
        (gridSearch (objective_function current_price r q row)).2 ≤
          objective_function current_price r q row (gridPoint i)) ∧
      (gridSearch (objective_function current_price r q row) =
          (0.5, objective_function current_price r q row 0.5) ∨
        ∃ i, i < 100 ∧
          gridSearch (objective_function current_price r q row) =
            (gridPoint i, objective_function current_price r q row (gridPoint i)) ∧
          objective_function current_price r q row (gridPoint i) <
            objective_function current_price r q row 0.5 ∧
          ∀ j, j < i →
            objective_function current_price r q row (gridPoint i) <
              objective_function current_price r q row (gridPoint j))) := by
  refine ⟨?_, by norm_num [gridPoint], by norm_num [gridPoint], ?_, by
    simp [sigmaGrid], gridSearch_spec (objective_function current_price r q row)⟩
  · rw [calc_iv, if_neg (not_lt.mpr h)]
  · intro i
    simp only [gridPoint]
    push_cast
    ring

/-- C1 witness: the hypothesis holds at the sample quote, and `calc_iv`
there is the thresholded grid-search result. -/
theorem C1_grid_argmin_witness :
    (0.01 ≤ sampleQuote.lastPrice) ∧
    calc_iv 100 0 0 sampleQuote =
      (if 0.1 * sampleQuote.lastPrice <
          (gridSearch (objective_function 100 0 0 sampleQuote)).2
      then none
      else some (gridSearch (objective_function 100 0 0 sampleQuote)).1) :=
  ⟨by norm_num [sampleQuote],
    (C1_grid_argmin 100 0 0 sampleQuote (by norm_num [sampleQuote])).1⟩

/-- C2: `calc_iv` returns `none` exactly when the observed price is below
0.01 (checked before any search) or the best grid-search error exceeds 10%
of the observed price; otherwise it returns a volatility.  The best error
really is the minimum over the seed and all candidates, and a `None` for
one quote never aborts the pass over the other quotes: the
implied-volatility computation maps `calc_iv` over every row of a
non-empty collection unconditionally. -/
theorem C2_solver_rejection :
    ∀ (current_price r q : ℝ) (row : OptionQuote) (first : OptionQuote)
      (rest : List OptionQuote),
      (calc_iv current_price r q row = none ↔
        row.lastPrice < 0.01 ∨
          0.1 * row.lastPrice <
            (gridSearch (objective_function current_price r q row)).2) ∧
      (∀ i, i < 100 →
        (gridSearch (objective_function current_price r q row)).2 ≤
          objective_function current_price r q row (gridPoint i)) ∧
      (gridSearch (objective_function current_price r q row)).2 ≤
        objective_function current_price r q row 0.5 ∧
      calculate_implied_volatility (first :: rest) r q =
        some ((first :: rest).map
          (setIV (first.moneyness * first.strike) r q)) := by
  intro current_price r q row first rest
  obtain ⟨-, hseed, hgrid, -⟩ :=
    gridSearch_spec (objective_function current_price r q row)
  refine ⟨?_, hgrid, hseed, rfl⟩
  by_cases h1 : row.lastPrice < 0.01
  · simp [calc_iv, h1]
  · by_cases h2 : 0.1 * row.lastPrice <
        (gridSearch (objective_function current_price r q row)).2
    · simp [calc_iv, h1, h2]
    · simp [calc_iv, h1, h2]

/-- C3: on a non-empty quote collection, `calculate_implied_volatility`
uses the single value `moneyness * strike` of the first row as the spot in
the pricing objective for every quote of both sides; since moneyness is
strike over spot, that value is the first quote's strike squared over the
spot, and it equals the actual spot exactly when the first quote's
moneyness is 1. -/
theorem C3_spot_from_first_row :
    ∀ (r q S : ℝ) (first : OptionQuote) (rest : List OptionQuote),
      calculate_implied_volatility (first :: rest) r q =
        some ((first :: rest).map
          (setIV (first.moneyness * first.strike) r q)) ∧
      (0 < S → 0 < first.strike → first.moneyness = first.strike / S →
        first.moneyness * first.strike = first.strike ^ 2 / S ∧
        (first.moneyness * first.strike = S ↔ first.moneyness = 1)) := by
  intro r q S first rest
  refine ⟨rfl, ?_⟩
  intro hS hK hm
  have hS0 : S ≠ 0 := ne_of_gt hS
  constructor
  · rw [hm]; field_simp; ring
  · rw [hm]
    constructor
    · intro h
      have hsq : first.strike ^ 2 = S ^ 2 := by
        field_simp at h
        nlinarith [h]
      have hKS : first.strike = S := by nlinarith [hsq, hK, hS]
      rw [hKS, div_self hS0]
    · intro h
      have hKS : first.strike = S := by
        field_simp at h
        exact h
      rw [hKS, div_self hS0, one_mul]

/-- C4 counterexample: the quote collection is not left unchanged by the
implied-volatility computation.  Python assigns the `impliedVolatility`
column in place on the argument frame and hands that same frame back, so
the post-state of the input is the returned list; at a concrete one-quote
collection it differs from the input: a column has been added. -/
theorem C4_purity_counterexample :
    calculate_implied_volatility [sampleQuote] 0 0 ≠ some [sampleQuote] := by
  intro h
  simp only [calculate_implied_volatility, List.map_cons, List.map_nil,
    Option.some.injEq, List.cons.injEq, and_true] at h
  have h2 := congrArg OptionQuote.impliedVolatility h
  simp [sampleQuote] at h2

/-- C4 amended: every core operation is a deterministic function of its
inputs, and the surface-construction step copies its input frame; but the
implied-volatility pass mutates the input collection in place by writing
the `impliedVolatility` column.  That column is the only change: the
result has the same length and, with the `impliedVolatility` column
erased, the same rows in the same order. -/
theorem C4_purity_amended :
    ∀ (r q : ℝ) (first : OptionQuote) (rest : List OptionQuote),
      ∃ out, calculate_implied_volatility (first :: rest) r q = some out ∧
        out.length = (first :: rest).length ∧
        out.map eraseIV = (first :: rest).map eraseIV ∧
        out = (first :: rest).map (setIV (first.moneyness * first.strike) r q) := by
  intro r q first rest
  refine ⟨_, rfl, by simp, ?_, rfl⟩
  rw [List.map_map]
  exact List.map_congr_left fun row hrow => rfl

/-- C5 counterexample: a present-but-empty quote collection does not
produce `(none, none)`; the implied-volatility pass hits `.iloc[0]` on the
empty frame and the build errors out (outer `none`). -/
theorem C5_empty_counterexample :
    get_volatility_surface (some ([] : List OptionQuote)) 0 0 true none = none ∧
    get_volatility_surface (some ([] : List OptionQuote)) 0 0 true none ≠
      some (none, none) := by
  refine ⟨rfl, ?_⟩
  intro h
  rw [show get_volatility_surface (some ([] : List OptionQuote)) 0 0 true none
      = none from rfl] at h
  exact Option.noConfusion h

/-- C5 amended: a side whose quote set is empty after solver rejection and
range filtering yields `none` for that side rather than an empty grid, and
an absent (`None`) input collection yields `(none, none)`; but a present
and empty collection makes the build raise an index error instead of
returning `(none, none)`. -/
theorem C5_empty_amended :
    ∀ (df : List OptionQuote) (option_type : OptionSide)
      (use_moneyness : Bool) (filter_range : Option (ℝ × ℝ)) (r q : ℝ),
      (create_volatility_surface df option_type use_moneyness filter_range = none ↔
        filtered_rows (dropna_rows (side_rows df option_type)) use_moneyness
          filter_range = []) ∧
      get_volatility_surface none r q use_moneyness filter_range =
        some (none, none) := by
  intro df option_type use_moneyness filter_range r q
  refine ⟨?_, rfl⟩
  rw [create_volatility_surface]
  by_cases h : filtered_rows (dropna_rows (side_rows df option_type))
      use_moneyness filter_range = []
  · simp [h]
  · simp [h, List.isEmpty_iff]

/-- C6: with a `(low, high)` range supplied, the surface builder keeps
exactly the quotes whose moneyness (when `use_moneyness`) or raw strike
(otherwise) lies within `[low, high]`, both bounds inclusive, and discards
every quote strictly outside; with no range supplied all quotes are
kept. -/
theorem C6_filter_inclusive :
    ∀ (df : List OptionQuote) (use_moneyness : Bool) (lo hi : ℝ)
      (row : OptionQuote),
      (row ∈ filtered_rows df use_moneyness (some (lo, hi)) ↔
        row ∈ df ∧ lo ≤ y_value use_moneyness row ∧
          y_value use_moneyness row ≤ hi) ∧
      filtered_rows df use_moneyness none = df ∧
      y_value use_moneyness row =
        (if use_moneyness then row.moneyness else row.strike) := by
  intro df use_moneyness lo hi row
  refine ⟨?_, rfl, rfl⟩
  simp [filtered_rows, List.mem_filter, and_assoc]

/-- C7: the grid built from the surviving rows has its `daysToExpiry` axis
and its y-axis (moneyness when `use_moneyness`, strike otherwise) sorted
strictly ascending with exactly the values occurring among the rows; a
populated cell holds the arithmetic mean of the implied volatilities of
the rows sharing that `(daysToExpiry, yAxisValue)` bucket, and a cell with
an empty bucket is absent (`none`) rather than zero-filled.  The surface
builder returns exactly this grid on the rows surviving its filters, or
`none` when no row survives. -/
theorem C7_pivot_grid :
    ∀ (df df2 : List OptionQuote) (option_type : OptionSide)
      (use_moneyness : Bool) (filter_range : Option (ℝ × ℝ)) (d : ℤ) (y : ℝ)
      (row : OptionQuote),
      create_volatility_surface df2 option_type use_moneyness filter_range =
        (if (filtered_rows (dropna_rows (side_rows df2 option_type))
              use_moneyness filter_range).isEmpty
          then none
          else some (mkSurface (filtered_rows (dropna_rows (side_rows df2 option_type))
            use_moneyness filter_range) use_moneyness)) ∧
      (mkSurface df use_moneyness).xAxis.Sorted (· < ·) ∧
      (mkSurface df use_moneyness).yAxis.Sorted (· < ·) ∧
      (d ∈ (mkSurface df use_moneyness).xAxis ↔
        ∃ r0 ∈ df, r0.daysToExpiry = d) ∧
      (y ∈ (mkSurface df use_moneyness).yAxis ↔
        ∃ r0 ∈ df, y_value use_moneyness r0 = y) ∧
      (row ∈ bucket df use_moneyness d y ↔
        row ∈ df ∧ row.daysToExpiry = d ∧ y_value use_moneyness row = y) ∧
      ((mkSurface df use_moneyness).cell d y = none ↔
        bucket df use_moneyness d y = []) ∧
      ((∃ v, (mkSurface df use_moneyness).cell d y = some v ∧
          v * (bucket df use_moneyness d y).length =
            ((bucket df use_moneyness d y).map ivVal).sum) ∨
        ((mkSurface df use_moneyness).cell d y = none ∧
          bucket df use_moneyness d y = [])) := by
  intro df df2 option_type use_moneyness filter_range d y row
  refine ⟨rfl, ?_, ?_, ?_, ?_, ?_, ?_, ?_⟩
  · simp only [mkSurface]
    exact Finset.sort_sorted_lt _
  · simp only [mkSurface]
    exact Finset.sort_sorted_lt _
  · simp [mkSurface, Finset.mem_sort, List.mem_toFinset, List.mem_map]
  · simp [mkSurface, Finset.mem_sort, List.mem_toFinset, List.mem_map]
  · simp [bucket, List.mem_filter, and_assoc]
  · simp [mkSurface, List.isEmpty_iff]
  · by_cases hb : bucket df use_moneyness d y = []
    · exact Or.inr ⟨by simp [mkSurface, hb], hb⟩
    · refine Or.inl ⟨((bucket df use_moneyness d y).map ivVal).sum /
        (bucket df use_moneyness d y).length, ?_, ?_⟩
      · simp [mkSurface, List.isEmpty_iff, hb]
      · have hlen : ((bucket df use_moneyness d y).length : ℝ) ≠ 0 :=
          Nat.cast_ne_zero.mpr (List.length_pos.mpr hb).ne'
        field_simp

theorem normalPDF_nonneg (t : ℝ) : 0 ≤ normalPDF t := by
  rw [normalPDF]; positivity

theorem integrable_normalPDF : Integrable normalPDF := by
  have h := (integrable_exp_neg_mul_sq
    (show (0:ℝ) < 1 / 2 by norm_num)).const_mul (Real.sqrt (2 * Real.pi))⁻¹
  unfold normalPDF
  exact h

theorem integral_normalPDF : ∫ t, normalPDF t = 1 := by
  unfold normalPDF
  rw [integral_mul_left, integral_gaussian,
    show Real.pi / (1 / 2) = 2 * Real.pi by ring,
    inv_mul_cancel₀ (Real.sqrt_ne_zero'.mpr (by positivity))]

theorem normalCDF_nonneg (x : ℝ) : 0 ≤ normalCDF x :=
  setIntegral_nonneg measurableSet_Iic fun t _ => normalPDF_nonneg t

theorem normalCDF_le_one (x : ℝ) : normalCDF x ≤ 1 := by
  rw [normalCDF, ← integral_normalPDF]
  exact setIntegral_le_integral integrable_normalPDF
    (Filter.Eventually.of_forall normalPDF_nonneg)

theorem normalCDF_mono {x y : ℝ} (h : x ≤ y) : normalCDF x ≤ normalCDF y := by
  rw [normalCDF, normalCDF]
  exact setIntegral_mono_set integrable_normalPDF.integrableOn
    (Filter.Eventually.of_forall normalPDF_nonneg)
    (HasSubset.Subset.eventuallyLE (Iic_subset_Iic.mpr h))

theorem normalPDF_neg (t : ℝ) : normalPDF (-t) = normalPDF t := by
  simp [normalPDF, neg_sq]

theorem normalCDF_add_neg (x : ℝ) : normalCDF x + normalCDF (-x) = 1 := by
  have h1 : normalCDF (-x) = ∫ t in Ioi x, normalPDF t := by
    rw [normalCDF, ← integral_comp_neg_Ioi]
    simp only [normalPDF_neg]
  rw [h1, normalCDF, intervalIntegral.integral_Iic_add_Ioi integrable_normalPDF.integrableOn
    integrable_normalPDF.integrableOn, integral_normalPDF]

theorem normalCDF_zero : normalCDF 0 = 1 / 2 := by
  have h := normalCDF_add_neg 0
  rw [neg_zero] at h
  linarith

theorem normalCDF_neg_le (a : ℝ) (ha : 0 ≤ a) :
    normalCDF (-a) ≤ Real.sqrt 2 * Real.exp (-(1 / 4) * a ^ 2) := by
  have hsq2pi : (0:ℝ) < Real.sqrt (2 * Real.pi) := Real.sqrt_pos.mpr (by positivity)
  have hc0 : (0:ℝ) ≤ (Real.sqrt (2 * Real.pi))⁻¹ := inv_nonneg.mpr hsq2pi.le
  have hgint : Integrable (fun t : ℝ =>
      (Real.sqrt (2 * Real.pi))⁻¹ * Real.exp (-(1 / 4) * a ^ 2) *
        Real.exp (-(1 / 4) * t ^ 2)) :=
    (integrable_exp_neg_mul_sq (show (0:ℝ) < 1 / 4 by norm_num)).const_mul _
  have hpoint : ∀ t ∈ Iic (-a), normalPDF t ≤
      (Real.sqrt (2 * Real.pi))⁻¹ * Real.exp (-(1 / 4) * a ^ 2) *
        Real.exp (-(1 / 4) * t ^ 2) := by
    intro t ht
    have ht2 : a ^ 2 ≤ t ^ 2 := by
      have ht1 : t ≤ -a := ht
      nlinarith
    rw [normalPDF, mul_assoc, ← Real.exp_add]
    exact mul_le_mul_of_nonneg_left
      (Real.exp_le_exp.mpr (by nlinarith)) hc0
  have hstep1 : normalCDF (-a) ≤
      ∫ t in Iic (-a), (Real.sqrt (2 * Real.pi))⁻¹ * Real.exp (-(1 / 4) * a ^ 2) *
        Real.exp (-(1 / 4) * t ^ 2) := by
    rw [normalCDF]
    exact setIntegral_mono_on integrable_normalPDF.integrableOn
      hgint.integrableOn measurableSet_Iic hpoint
  have hstep2 : (∫ t in Iic (-a),
      (Real.sqrt (2 * Real.pi))⁻¹ * Real.exp (-(1 / 4) * a ^ 2) *
        Real.exp (-(1 / 4) * t ^ 2)) ≤
      ∫ t : ℝ, (Real.sqrt (2 * Real.pi))⁻¹ * Real.exp (-(1 / 4) * a ^ 2) *
        Real.exp (-(1 / 4) * t ^ 2) :=
    setIntegral_le_integral hgint (Filter.Eventually.of_forall fun t => by positivity)
  have hstep3 : (∫ t : ℝ, (Real.sqrt (2 * Real.pi))⁻¹ * Real.exp (-(1 / 4) * a ^ 2) *
      Real.exp (-(1 / 4) * t ^ 2)) = Real.sqrt 2 * Real.exp (-(1 / 4) * a ^ 2) := by
    rw [integral_mul_left, integral_gaussian,
      show Real.pi / (1 / 4) = 2 * (2 * Real.pi) by ring,
      Real.sqrt_mul (by norm_num : (0:ℝ) ≤ 2)]
    field_simp
    ring
  exact le_trans hstep1 (le_trans hstep2 (le_of_eq hstep3))

theorem normalCDF_ge_of_le (x a : ℝ) (ha : 0 ≤ a) (hax : a ≤ x) :
    1 - Real.sqrt 2 * Real.exp (-(1 / 4) * a ^ 2) ≤ normalCDF x := by
  have h1 := normalCDF_add_neg x
  have h2 : normalCDF (-x) ≤ normalCDF (-a) := normalCDF_mono (neg_le_neg hax)
  have h3 := normalCDF_neg_le a ha
  linarith

/-- C8: put-call parity.  For every valid contract the call and put prices
of the (spec-modelled) pricer satisfy
`call − put = S·e^(−qT) − K·e^(−rT)` exactly over the reals, hence in
particular within the 1e-6 relative tolerance the spec allows for
floating point. -/
theorem C8_put_call_parity (S K T r sigma q : ℝ)
    (hS : 0 < S) (hK : 0 < K) (hT : 0 < T) (hsigma : 0 < sigma)
    (hq : 0 ≤ q) :
    BlackScholes.calculate_option_price S K T r sigma q OptionSide.call -
        BlackScholes.calculate_option_price S K T r sigma q OptionSide.put =
      S * Real.exp (-q * T) - K * Real.exp (-r * T) ∧
    |BlackScholes.calculate_option_price S K T r sigma q OptionSide.call -
        BlackScholes.calculate_option_price S K T r sigma q OptionSide.put -
        (S * Real.exp (-q * T) - K * Real.exp (-r * T))| ≤
      0.000001 * |S * Real.exp (-q * T) - K * Real.exp (-r * T)| := by
  have h1 := normalCDF_add_neg (BlackScholes.d1 S K T r sigma q)
  have h2 := normalCDF_add_neg (BlackScholes.d2 S K T r sigma q)
  have heq : BlackScholes.calculate_option_price S K T r sigma q OptionSide.call -
      BlackScholes.calculate_option_price S K T r sigma q OptionSide.put =
      S * Real.exp (-q * T) - K * Real.exp (-r * T) := by
    simp only [BlackScholes.calculate_option_price]
    linear_combination (S * Real.exp (-q * T)) * h1 -
      (K * Real.exp (-r * T)) * h2
  refine ⟨heq, ?_⟩
  rw [heq, sub_self, abs_zero]
  positivity

/-- C8 witness: the hypotheses hold at the reference contract
S = K = T = σ = 1, r = q = 0, and parity holds there. -/
theorem C8_put_call_parity_witness :
    ((0:ℝ) < 1 ∧ (0:ℝ) < 1 ∧ (0:ℝ) < 1 ∧ (0:ℝ) < 1 ∧ (0:ℝ) ≤ 0) ∧
    BlackScholes.calculate_option_price 1 1 1 0 1 0 OptionSide.call -
        BlackScholes.calculate_option_price 1 1 1 0 1 0 OptionSide.put =
      1 * Real.exp (-0 * 1) - 1 * Real.exp (-0 * 1) :=
  ⟨⟨by norm_num, by norm_num, by norm_num, by norm_num, le_refl 0⟩,
    (C8_put_call_parity 1 1 1 0 1 0 (by norm_num) (by norm_num) (by norm_num)
      (by norm_num) (le_refl 0)).1⟩

/-- C10: the pricer does not fail on degenerate inputs.  The spec-modelled
pricer (faithful to spec section 9: the source guards neither `σ·√T = 0`
nor non-positive inputs) is a total function that silently returns a junk
value where the claim demands an explicit domain error: at `T = 0` the
call on a 100/80 contract comes out as 10 (the division by zero collapses
`d1` and `d2`), and at `σ = 0` an at-the-money call prices to 0. -/
theorem C10_no_domain_error :
    BlackScholes.calculate_option_price 100 80 0 0 (1 / 2) 0 OptionSide.call
      = 10 ∧
    BlackScholes.calculate_option_price 100 100 1 0 0 0 OptionSide.call
      = 0 := by
  constructor
  · simp only [BlackScholes.calculate_option_price, BlackScholes.d1,
      BlackScholes.d2]
    rw [Real.sqrt_zero]
    norm_num [normalCDF_zero]
  · simp only [BlackScholes.calculate_option_price, BlackScholes.d1,
      BlackScholes.d2]
    rw [Real.sqrt_one]
    norm_num [normalCDF_zero]

/-- C9 counterexample: a valid contract (all parameters positive,
σ₀ = 0.05 ∈ [0.05, 1.5]) whose round trip returns NotFound rather than a
volatility near σ₀: a deep out-of-the-money call (K = 100·e, S = 100,
T = 1, r = q = 0) prices below the solver's 0.01 floor, so `calc_iv`
rejects the quote before any search. -/
theorem C9_roundtrip_counterexample :
    ((0:ℝ) < 100 ∧ (0:ℝ) < 100 * Real.exp 1 ∧ (0:ℝ) < 1 ∧
      (0.05:ℝ) ∈ Icc (0.05:ℝ) 1.5 ∧ (0:ℝ) ≤ 0) ∧
    calc_iv 100 0 0
      { strike := 100 * Real.exp 1, optionType := OptionSide.call,
        lastPrice := BlackScholes.calculate_option_price 100
          (100 * Real.exp 1) 1 0 0.05 0 OptionSide.call,
        timeToExpiry := 1, daysToExpiry := 365, moneyness := Real.exp 1,
        impliedVolatility := none } = none := by
  have hK : (0:ℝ) < 100 * Real.exp 1 := by positivity
  have hd1 : BlackScholes.d1 100 (100 * Real.exp 1) 1 0 0.05 0 = -19.975 := by
    rw [BlackScholes.d1, Real.sqrt_one]
    rw [show (100:ℝ) / (100 * Real.exp 1) = (Real.exp 1)⁻¹ by
      rw [div_mul_eq_div_div]; norm_num [one_div]]
    rw [← Real.exp_neg, Real.log_exp]
    norm_num
  have htail : normalCDF (-19.975) < 0.0001 := by
    have h1 : normalCDF (-19.975) ≤ normalCDF (-19) :=
      normalCDF_mono (by norm_num)
    have h2 := normalCDF_neg_le 19 (by norm_num)
    have hs2 : Real.sqrt 2 ≤ 1.5 := by
      rw [show (1.5:ℝ) = Real.sqrt (1.5 ^ 2) from
        (Real.sqrt_sq (by norm_num)).symm]
      exact Real.sqrt_le_sqrt (by norm_num)
    have hexp : Real.exp (-(1 / 4) * (19:ℝ) ^ 2) ≤ 1 / 100000 := by
      rw [show -(1 / 4) * (19:ℝ) ^ 2 = -90.25 by norm_num, Real.exp_neg,
        show (1:ℝ) / 100000 = (100000:ℝ)⁻¹ by norm_num]
      apply inv_le_inv_of_le (by norm_num)
      have hb : (23.5625:ℝ) ≤ Real.exp 22.5625 := by
        have := Real.add_one_le_exp (22.5625:ℝ); linarith
      have h4 : Real.exp 90.25 = (Real.exp 22.5625) ^ (4:ℕ) := by
        rw [← Real.exp_nat_mul]; norm_num
      rw [h4]
      calc (100000:ℝ) ≤ (23.5625:ℝ) ^ (4:ℕ) := by norm_num
        _ ≤ (Real.exp 22.5625) ^ (4:ℕ) := by
            exact pow_le_pow_left (by norm_num) hb 4
    have hE : 0 < Real.exp (-(1 / 4) * (19:ℝ) ^ 2) := Real.exp_pos _
    nlinarith [h1, h2, hs2, hexp, hE, Real.sqrt_nonneg (2:ℝ)]
  have hprice : BlackScholes.calculate_option_price 100 (100 * Real.exp 1)
      1 0 0.05 0 OptionSide.call < 0.01 := by
    simp only [BlackScholes.calculate_option_price]
    rw [hd1]
    have hc2 : 0 ≤ normalCDF
        (BlackScholes.d2 100 (100 * Real.exp 1) 1 0 0.05 0) :=
      normalCDF_nonneg _
    have hA : Real.exp (-(0:ℝ) * 1) = 1 := by norm_num
    rw [hA]
    nlinarith [htail, hK, hc2, mul_nonneg hK.le hc2]
  refine ⟨⟨by norm_num, hK, by norm_num, by norm_num [Set.mem_Icc], le_refl 0⟩, ?_⟩
  rw [calc_iv]
  split
  · rfl
  · rename_i hcontra
    exact absurd hprice hcontra


theorem normalPDF_pos (t : ℝ) : 0 < normalPDF t := by
  rw [normalPDF]; positivity

theorem continuous_normalPDF : Continuous normalPDF := by
  unfold normalPDF
  continuity

theorem hasDerivAt_normalCDF (x : ℝ) :
    HasDerivAt normalCDF (normalPDF x) x := by
  have key : ∀ y : ℝ,
      normalCDF y = normalCDF 0 + ∫ t in (0:ℝ)..y, normalPDF t := by
    intro y
    rw [normalCDF, normalCDF, ← intervalIntegral.integral_Iic_sub_Iic
      integrable_normalPDF.integrableOn integrable_normalPDF.integrableOn]
    ring
  have hFTC : HasDerivAt (fun y => ∫ t in (0:ℝ)..y, normalPDF t)
      (normalPDF x) x :=
    intervalIntegral.integral_hasDerivAt_right
      integrable_normalPDF.intervalIntegrable
      (continuous_normalPDF.stronglyMeasurableAtFilter _ _)
      continuous_normalPDF.continuousAt
  exact (hFTC.const_add (normalCDF 0)).congr_of_eventuallyEq
    (Filter.Eventually.of_forall key)

/-- The classical identity `K·e^(−rT)·φ(d2) = S·e^(−qT)·φ(d1)` behind the
side-independence of vega; it makes the pricer strictly increasing in σ. -/
theorem vega_identity (S K T r q sigma : ℝ) (hS : 0 < S) (hK : 0 < K)
    (hT : 0 < T) (hsig : sigma ≠ 0) :
    K * Real.exp (-r * T) * normalPDF (BlackScholes.d2 S K T r sigma q) =
      S * Real.exp (-q * T) * normalPDF (BlackScholes.d1 S K T r sigma q) := by
  have hsT : 0 < Real.sqrt T := Real.sqrt_pos.mpr hT
  have hden : sigma * Real.sqrt T ≠ 0 := mul_ne_zero hsig hsT.ne'
  have hs2 : Real.sqrt T ^ 2 = T := Real.sq_sqrt hT.le
  have hkey : BlackScholes.d1 S K T r sigma q * (sigma * Real.sqrt T) =
      Real.log (S / K) + (r - q + sigma ^ 2 / 2) * T := by
    rw [BlackScholes.d1, div_mul_cancel₀ _ hden]
  have hexp : -(1 / 2) * BlackScholes.d2 S K T r sigma q ^ 2 =
      -(1 / 2) * BlackScholes.d1 S K T r sigma q ^ 2 +
        (Real.log (S / K) + (r - q) * T) := by
    rw [BlackScholes.d2]
    linear_combination hkey - (sigma ^ 2 / 2) * hs2
  have hE : Real.exp (-r * T) * Real.exp ((r - q) * T) = Real.exp (-q * T) := by
    rw [← Real.exp_add]
    congr 1
    ring
  have hphi : normalPDF (BlackScholes.d2 S K T r sigma q) =
      normalPDF (BlackScholes.d1 S K T r sigma q) * (S / K) *
        Real.exp ((r - q) * T) := by
    rw [normalPDF, normalPDF, hexp, Real.exp_add, Real.exp_add,
      Real.exp_log (div_pos hS hK)]
    ring
  have hcancel : S / K * K = S := div_mul_cancel₀ S hK.ne'
  rw [hphi]
  linear_combination (Real.exp (-r * T) * Real.exp ((r - q) * T) *
      normalPDF (BlackScholes.d1 S K T r sigma q)) * hcancel +
    (S * normalPDF (BlackScholes.d1 S K T r sigma q)) * hE

/-- The pricer as a function of σ has derivative
`S·e^(−qT)·φ(d1)·√T` (the unscaled vega) at every σ > 0, for both
sides. -/
theorem price_hasDerivAt (S K T r q : ℝ) (hS : 0 < S) (hK : 0 < K)
    (hT : 0 < T) (side : OptionSide) (sigma : ℝ) (hsig : 0 < sigma) :
    HasDerivAt (fun x => BlackScholes.calculate_option_price S K T r x q side)
      (S * Real.exp (-q * T) * normalPDF (BlackScholes.d1 S K T r sigma q) *
        Real.sqrt T) sigma := by
  have hsT : 0 < Real.sqrt T := Real.sqrt_pos.mpr hT
  have hden : sigma * Real.sqrt T ≠ 0 := mul_ne_zero hsig.ne' hsT.ne'
  have hnum : HasDerivAt (fun x : ℝ =>
      Real.log (S / K) + (r - q + x ^ 2 / 2) * T) (sigma * T) sigma := by
    have h1 : HasDerivAt (fun x : ℝ => x ^ 2) (2 * sigma) sigma := by
      simpa using hasDerivAt_pow 2 sigma
    have h2 := (((h1.div_const 2).const_add (r - q)).mul_const T).const_add
      (Real.log (S / K))
    convert h2 using 1
    ring
  have hdenD : HasDerivAt (fun x : ℝ => x * Real.sqrt T) (Real.sqrt T) sigma := by
    simpa using (hasDerivAt_id sigma).mul_const (Real.sqrt T)
  obtain ⟨D, hd1⟩ :
      ∃ D, HasDerivAt (fun x => BlackScholes.d1 S K T r x q) D sigma :=
    ⟨_, hnum.div hdenD hden⟩
  have hd2 : HasDerivAt (fun x => BlackScholes.d2 S K T r x q)
      (D - Real.sqrt T) sigma := hd1.sub hdenD
  have hC1 : HasDerivAt (fun x => normalCDF (BlackScholes.d1 S K T r x q))
      (normalPDF (BlackScholes.d1 S K T r sigma q) * D) sigma :=
    (hasDerivAt_normalCDF _).comp sigma hd1
  have hC2 : HasDerivAt (fun x => normalCDF (BlackScholes.d2 S K T r x q))
      (normalPDF (BlackScholes.d2 S K T r sigma q) * (D - Real.sqrt T)) sigma :=
    (hasDerivAt_normalCDF _).comp sigma hd2
  have hid := vega_identity S K T r q sigma hS hK hT hsig.ne'
  cases side with
  | call =>
      have h := (hC1.const_mul (S * Real.exp (-q * T))).sub
        (hC2.const_mul (K * Real.exp (-r * T)))
      have heq : S * Real.exp (-q * T) *
          (normalPDF (BlackScholes.d1 S K T r sigma q) * D) -
          K * Real.exp (-r * T) *
            (normalPDF (BlackScholes.d2 S K T r sigma q) * (D - Real.sqrt T)) =
          S * Real.exp (-q * T) * normalPDF (BlackScholes.d1 S K T r sigma q) *
            Real.sqrt T := by
        linear_combination (Real.sqrt T - D) * hid
      rw [← heq]
      exact h
  | put =>
      have hn1 : HasDerivAt (fun x => normalCDF (-BlackScholes.d1 S K T r x q))
          (normalPDF (BlackScholes.d1 S K T r sigma q) * -D) sigma := by
        have := (hasDerivAt_normalCDF
          (-BlackScholes.d1 S K T r sigma q)).comp sigma hd1.neg
        rwa [normalPDF_neg] at this
      have hn2 : HasDerivAt (fun x => normalCDF (-BlackScholes.d2 S K T r x q))
          (normalPDF (BlackScholes.d2 S K T r sigma q) * -(D - Real.sqrt T))
          sigma := by
        have := (hasDerivAt_normalCDF
          (-BlackScholes.d2 S K T r sigma q)).comp sigma hd2.neg
        rwa [normalPDF_neg] at this
      have h := (hn2.const_mul (K * Real.exp (-r * T))).sub
        (hn1.const_mul (S * Real.exp (-q * T)))
      have heq : K * Real.exp (-r * T) *
          (normalPDF (BlackScholes.d2 S K T r sigma q) * -(D - Real.sqrt T)) -
          S * Real.exp (-q * T) *
            (normalPDF (BlackScholes.d1 S K T r sigma q) * -D) =
          S * Real.exp (-q * T) * normalPDF (BlackScholes.d1 S K T r sigma q) *
            Real.sqrt T := by
        linear_combination (Real.sqrt T - D) * hid
      rw [← heq]
      exact h

/-- The pricer is strictly increasing in σ on σ > 0 (strictly positive
vega), for both option sides. -/
theorem price_strictMonoOn (S K T r q : ℝ) (hS : 0 < S) (hK : 0 < K)
    (hT : 0 < T) (side : OptionSide) :
    StrictMonoOn (fun x => BlackScholes.calculate_option_price S K T r x q side)
      (Ioi (0:ℝ)) := by
  have hsT : 0 < Real.sqrt T := Real.sqrt_pos.mpr hT
  apply strictMonoOn_of_deriv_pos (convex_Ioi 0)
  · intro x hx
    exact (price_hasDerivAt S K T r q hS hK hT side x hx).continuousAt.continuousWithinAt
  · intro x hx
    rw [interior_Ioi] at hx
    rw [(price_hasDerivAt S K T r q hS hK hT side x hx).deriv]
    exact mul_pos (mul_pos (mul_pos hS (Real.exp_pos _))
      (normalPDF_pos _)) hsT

/-- For a function strictly monotone on positive reals, a point strictly
between another candidate and the target has strictly smaller absolute
error. -/
theorem abs_err_lt_of_between (p : ℝ → ℝ) (hp : StrictMonoOn p (Ioi (0:ℝ)))
    (sigma0 x y : ℝ) (hx : 0 < x) (hy : 0 < y) (h0 : 0 < sigma0)
    (hbet : (y < x ∧ x < sigma0) ∨ (sigma0 < x ∧ x < y)) :
    |p x - p sigma0| < |p y - p sigma0| := by
  rcases hbet with ⟨h1, h2⟩ | ⟨h1, h2⟩
  · have hyx : p y < p x := hp (mem_Ioi.mpr hy) (mem_Ioi.mpr hx) h1
    have hxs : p x < p sigma0 := hp (mem_Ioi.mpr hx) (mem_Ioi.mpr h0) h2
    rw [abs_of_neg (sub_neg.mpr hxs), abs_of_neg (sub_neg.mpr (hyx.trans hxs))]
    linarith
  · have hsx : p sigma0 < p x := hp (mem_Ioi.mpr h0) (mem_Ioi.mpr hx) h1
    have hxy : p x < p y := hp (mem_Ioi.mpr hx) (mem_Ioi.mpr hy) h2
    rw [abs_of_pos (sub_pos.mpr hsx), abs_of_pos (sub_pos.mpr (hsx.trans hxy))]
    linarith

/-- Argmin localisation: when the pricing objective is built from a
function strictly monotone in σ and the target volatility lies in
[0.05, 1.5], the volatility returned by the grid search (seed included)
is within one grid spacing 1.99/99 of the target — otherwise a strictly
better candidate would sit between the winner and the target,
contradicting the winner's minimality. -/
theorem gridSearch_winner_near (p : ℝ → ℝ) (hp : StrictMonoOn p (Ioi (0:ℝ)))
    (sigma0 : ℝ) (h05 : 0.05 ≤ sigma0) (h15 : sigma0 ≤ 1.5) :
    |(gridSearch fun x => |p x - p sigma0|).1 - sigma0| ≤ 1.99 / 99 := by
  have h0 : (0:ℝ) < sigma0 := by linarith
  obtain ⟨heq, hseed, hgrid, hdisj⟩ :=
    gridSearch_spec (fun x => |p x - p sigma0|)
  by_contra hfar
  push_neg at hfar
  have hgp : ∀ j : ℕ, gridPoint j = 0.01 + j * (1.99 / 99) := by
    intro j; rw [gridPoint]; norm_num
  have hgpos : ∀ j : ℕ, 0 < gridPoint j := by
    intro j; rw [hgp]; positivity
  rcases hdisj with hw | ⟨i, hi, hw, hlt2, hfirst⟩
  · have hw1 : (gridSearch fun x => |p x - p sigma0|).1 = 0.5 := by rw [hw]
    have hw2 : (gridSearch fun x => |p x - p sigma0|).2 = |p 0.5 - p sigma0| := by
      rw [hw]
    rw [hw1] at hfar
    rcases lt_abs.mp hfar with hA | hA
    · -- sigma0 below the seed: gridPoint 24 lies strictly between
      have hb : |p (gridPoint 24) - p sigma0| < |p 0.5 - p sigma0| := by
        apply abs_err_lt_of_between p hp sigma0 _ _ (hgpos 24) (by norm_num) h0
        right
        refine ⟨?_, ?_⟩
        · rw [hgp]; norm_num; linarith
        · rw [hgp]; norm_num
      have hc := hgrid 24 (by norm_num)
      rw [hw2] at hc
      exact absurd hb (not_lt.mpr hc)
    · -- sigma0 above the seed: gridPoint 25 lies strictly between
      have hb : |p (gridPoint 25) - p sigma0| < |p 0.5 - p sigma0| := by
        apply abs_err_lt_of_between p hp sigma0 _ _ (hgpos 25) (by norm_num) h0
        left
        refine ⟨?_, ?_⟩
        · rw [hgp]; norm_num
        · rw [hgp]; norm_num; linarith
      have hc := hgrid 25 (by norm_num)
      rw [hw2] at hc
      exact absurd hb (not_lt.mpr hc)
  · have hw1 : (gridSearch fun x => |p x - p sigma0|).1 = gridPoint i := by
      rw [hw]
    have hw2 : (gridSearch fun x => |p x - p sigma0|).2 =
        |p (gridPoint i) - p sigma0| := by rw [hw]
    rw [hw1] at hfar
    rcases lt_abs.mp hfar with hA | hA
    · -- the winner sits above sigma0 by more than one spacing
      have hi1 : 1 ≤ i := by
        by_contra hcon
        push_neg at hcon
        have hz : i = 0 := by omega
        subst hz
        rw [hgp] at hA
        norm_num at hA
        linarith
      have hgm : gridPoint (i - 1) = gridPoint i - 1.99 / 99 := by
        rw [hgp, hgp, Nat.cast_sub hi1, Nat.cast_one]
        ring
      have hb : |p (gridPoint (i - 1)) - p sigma0| < |p (gridPoint i) - p sigma0| := by
        apply abs_err_lt_of_between p hp sigma0 _ _ (hgpos _) (hgpos _) h0
        right
        refine ⟨?_, ?_⟩
        · rw [hgm]; linarith
        · rw [hgm]; norm_num
      have hc := hgrid (i - 1) (by omega)
      rw [hw2] at hc
      exact absurd hb (not_lt.mpr hc)
    · -- the winner sits below sigma0 by more than one spacing
      have hip : gridPoint (i + 1) = gridPoint i + 1.99 / 99 := by
        rw [hgp, hgp]
        push_cast
        ring
      have hi1 : i + 1 < 100 := by
        by_contra hcon
        push_neg at hcon
        have h99 : (99:ℝ) ≤ (i:ℝ) := by exact_mod_cast (by omega : 99 ≤ i)
        rw [hgp] at hA
        have hprod : (99:ℝ) * (1.99 / 99) ≤ (i:ℝ) * (1.99 / 99) :=
          mul_le_mul_of_nonneg_right h99 (by norm_num)
        nlinarith
      have hb : |p (gridPoint (i + 1)) - p sigma0| < |p (gridPoint i) - p sigma0| := by
        apply abs_err_lt_of_between p hp sigma0 _ _ (hgpos _) (hgpos _) h0
        left
        refine ⟨?_, ?_⟩
        · rw [hip]; norm_num
        · rw [hip]; linarith
      have hc := hgrid (i + 1) hi1
      rw [hw2] at hc
      exact absurd hb (not_lt.mpr hc)

/-- C9 amended: for every valid contract with known σ₀ ∈ [0.05, 1.5], the
round trip through the solver either returns NotFound — exactly when the
model price at σ₀ is below the 0.01 floor (which valid deep
out-of-the-money contracts do reach, see the counterexample) or the best
grid error exceeds 10% of that price — or returns a volatility within the
grid resolution of σ₀.  The grid resolution is the linspace spacing
1.99/99 ≈ 0.0201 (the claim's "0.02" rounds it); the returned volatility
also reproduces the round-trip price within 10%. -/
theorem C9_roundtrip_amended (S K T r sigma0 q : ℝ) (side : OptionSide)
    (days : ℤ) (m : ℝ) (hS : 0 < S) (hK : 0 < K) (hT : 0 < T)
    (hq : 0 ≤ q) (h05 : 0.05 ≤ sigma0) (h15 : sigma0 ≤ 1.5) :
    let row : OptionQuote :=
      { strike := K, optionType := side,
        lastPrice := BlackScholes.calculate_option_price S K T r sigma0 q side,
        timeToExpiry := T, daysToExpiry := days, moneyness := m,
        impliedVolatility := none }
    (calc_iv S r q row = none ↔
      row.lastPrice < 0.01 ∨
        0.1 * row.lastPrice <
          (gridSearch (objective_function S r q row)).2) ∧
    ∀ sigmaStar, calc_iv S r q row = some sigmaStar →
      |sigmaStar - sigma0| ≤ 1.99 / 99 ∧
      objective_function S r q row sigmaStar ≤ 0.1 * row.lastPrice := by
  intro row
  have hiff : calc_iv S r q row = none ↔
      row.lastPrice < 0.01 ∨
        0.1 * row.lastPrice <
          (gridSearch (objective_function S r q row)).2 := by
    by_cases h1 : row.lastPrice < 0.01
    · simp [calc_iv, h1]
    · by_cases h2 : 0.1 * row.lastPrice <
          (gridSearch (objective_function S r q row)).2
      · simp [calc_iv, h1, h2]
      · simp [calc_iv, h1, h2]
  refine ⟨hiff, ?_⟩
  intro sigmaStar hsome
  by_cases h1 : row.lastPrice < 0.01
  · rw [calc_iv, if_pos h1] at hsome
    exact absurd hsome (by simp)
  · by_cases h2 : 0.1 * row.lastPrice <
        (gridSearch (objective_function S r q row)).2
    · have hnone : calc_iv S r q row = none := by simp [calc_iv, h1, h2]
      rw [hnone] at hsome
      exact absurd hsome (by simp)
    · have hform : calc_iv S r q row =
          some (gridSearch (objective_function S r q row)).1 := by
        simp [calc_iv, h1, h2]
      rw [hform] at hsome
      injection hsome with hstar
      obtain ⟨heq, -, -, -⟩ := gridSearch_spec (objective_function S r q row)
      rw [← hstar]
      constructor
      · have hobj : objective_function S r q row = fun x =>
            |BlackScholes.calculate_option_price S K T r x q side -
              BlackScholes.calculate_option_price S K T r sigma0 q side| := rfl
        rw [hobj]
        exact gridSearch_winner_near _
          (price_strictMonoOn S K T r q hS hK hT side) sigma0 h05 h15
      · rw [← heq]
        exact not_lt.mp h2

/-- C9 witness: the amended theorem instantiated at the valid reference
contract S = K = 100, T = 1, r = q = 0, σ₀ = 0.5, with all hypotheses
discharged. -/
theorem C9_roundtrip_amended_witness :
    ((0:ℝ) < 100 ∧ (0:ℝ) < 100 ∧ (0:ℝ) < 1 ∧ (0:ℝ) ≤ 0 ∧
      (0.05:ℝ) ≤ 0.5 ∧ (0.5:ℝ) ≤ 1.5) ∧
    (let row : OptionQuote :=
      { strike := 100, optionType := OptionSide.call,
        lastPrice := BlackScholes.calculate_option_price 100 100 1 0 0.5 0
          OptionSide.call,
        timeToExpiry := 1, daysToExpiry := 365, moneyness := 1,
        impliedVolatility := none }
    (calc_iv 100 0 0 row = none ↔
      row.lastPrice < 0.01 ∨
        0.1 * row.lastPrice <
          (gridSearch (objective_function 100 0 0 row)).2) ∧
    ∀ sigmaStar, calc_iv 100 0 0 row = some sigmaStar →
      |sigmaStar - 0.5| ≤ 1.99 / 99 ∧
      objective_function 100 0 0 row sigmaStar ≤ 0.1 * row.lastPrice) :=
  ⟨⟨by norm_num, by norm_num, by norm_num, le_refl 0, by norm_num, by norm_num⟩,
    C9_roundtrip_amended 100 100 1 0 0.5 0 OptionSide.call 365 1
      (by norm_num) (by norm_num) (by norm_num) (le_refl 0)
      (by norm_num) (by norm_num)⟩
